import Mathlib

/-!
Verification of the indexed-tree core of the `aoc_lib` repository
(`src/tree.rs`).  The Rust code stores nodes in a
`HashMap<usize, TreeNode<T>>` keyed by sequentially minted integer ids; we
embed the map as an association list with `mapGet` / `mapInsert` having the
get/insert semantics of `HashMap` (insert replaces the value of an existing
key).  Fallible Rust operations (`unwrap` on a missing key) are modelled
with `Option`; `Tree.add_child`, which mutates before it can fail, returns
the final tree state alongside an `Option` result so that the state at the
moment of an uncaught unwrap failure stays observable.  The traversal loop
of `Tree.aggregate`, a `while` loop in Rust, is modelled with explicit
fuel: one unit of fuel per loop iteration, `AggResult.fuelOut` meaning the
loop was still running when the fuel ran out.
-/

namespace AocLib

/-- One entry of the arena: the Rust struct `TreeNode<T>` with fields
`val`, `parent : Option<usize>` and `children : Vec<usize>`. -/
structure TreeNode (T : Type) where
  val : T
  parent : Option Nat
  children : List Nat
deriving DecidableEq

/-- `TreeNode::new`: fresh node, no parent, no children. -/
def TreeNode.new {T : Type} (val : T) : TreeNode T :=
  { val := val, parent := none, children := [] }

/-- Association-list model of `HashMap<usize, _>::get`. -/
def mapGet {α : Type} : List (Nat × α) → Nat → Option α
  | [], _ => none
  | (k, v) :: rest, id => if k = id then some v else mapGet rest id

/-- Association-list model of `HashMap<usize, _>::insert`: replaces the
value of an existing key, otherwise appends a fresh entry. -/
def mapInsert {α : Type} : List (Nat × α) → Nat → α → List (Nat × α)
  | [], k, v => [(k, v)]
  | (k1, v1) :: rest, k, v =>
      if k1 = k then (k, v) :: rest else (k1, v1) :: mapInsert rest k v

/-- The Rust struct `Tree<T>`: arena plus `node_count`. -/
structure Tree (T : Type) where
  nodes : List (Nat × TreeNode T)
  node_count : Nat
deriving DecidableEq

variable {T R : Type}

/-- `Tree::create_node` (private): inserts a fresh record at key
`node_count`, increments `node_count`, returns the id used. -/
def Tree.create_node (t : Tree T) (val : T) : Nat × Tree T :=
  let nodes := mapInsert t.nodes t.node_count (TreeNode.new val)
  let node_count := t.node_count + 1
  (node_count - 1, { nodes := nodes, node_count := node_count })

/-- `Tree::new`: empty arena, then `create_node` for the root. -/
def Tree.new (val : T) : Tree T :=
  (Tree.create_node { nodes := [], node_count := 0 } val).2

/-- `Tree::get_val`: `none` models the unwrap failing on a missing id. -/
def Tree.get_val (t : Tree T) (id : Nat) : Option T :=
  (mapGet t.nodes id).map TreeNode.val

/-- A write through `Tree::get_mut_val`: `&mut self.nodes.get_mut(&id).unwrap().val = w`.
`none` models the unwrap failing on a missing id. -/
def Tree.set_val (t : Tree T) (id : Nat) (w : T) : Option (Tree T) :=
  match mapGet t.nodes id with
  | none => none
  | some n =>
      some { nodes := mapInsert t.nodes id { val := w, parent := n.parent, children := n.children },
             node_count := t.node_count }

/-- `Tree::get_parent_id`. Outer `Option` models the unwrap on the id. -/
def Tree.get_parent_id (t : Tree T) (id : Nat) : Option (Option Nat) :=
  (mapGet t.nodes id).map TreeNode.parent

/-- `Tree::get_child_ids`. Outer `Option` models the unwrap on the id. -/
def Tree.get_child_ids (t : Tree T) (id : Nat) : Option (List Nat) :=
  (mapGet t.nodes id).map TreeNode.children

/-- `Tree::get_node_count`. -/
def Tree.get_node_count (t : Tree T) : Nat :=
  t.node_count

/-- `Tree::add_child`, step by step as in the source:
`create_node` first, then `set_parent` on the new record, then the lookup
of `parent_id` (which unwraps, failing if the parent is absent), then the
push onto the parent's children.  The second component is the tree state
when the call returns or when the unwrap fails; `none` in the first
component marks the failing unwrap. -/
def Tree.add_child (t : Tree T) (parent_id : Nat) (val : T) : Option Nat × Tree T :=
  let r := t.create_node val
  let child_id := r.1
  let t1 := r.2
  match mapGet t1.nodes child_id with
  | none => (none, t1)
  | some child =>
      let t2 : Tree T :=
        { nodes := mapInsert t1.nodes child_id
            { val := child.val, parent := some parent_id, children := child.children },
          node_count := t1.node_count }
      match mapGet t2.nodes parent_id with
      | none => (none, t2)
      | some parent =>
          (some child_id,
           { nodes := mapInsert t2.nodes parent_id
               { val := parent.val, parent := parent.parent,
                 children := parent.children ++ [child_id] },
             node_count := t2.node_count })

/-- Result of running the `aggregate` loop with a given amount of fuel:
`ok` is a normal return, `panicked` an uncaught unwrap failure inside the
loop or on the final accumulator, `fuelOut` means the loop had not finished
after `fuel` iterations. -/
inductive AggResult (R : Type) where
  | ok : R → AggResult R
  | panicked : AggResult R
  | fuelOut : AggResult R
deriving DecidableEq

/-- The `while stack.len() > 0` loop of `Tree::aggregate`.  The `Vec` used
as a stack is represented with the head of the list as the top of the
stack (`Vec::push` / `Vec::pop` act on the top); pushing the children
`c1, ..., ck` in order therefore prepends `children.reverse`.  One unit of
fuel is one loop iteration. -/
def aggregate_loop (t : Tree T) (f : T → R) (add : R → R → R) :
    Nat → List Nat → Option R → AggResult R
  | _, [], value =>
      match value with
      | some v => AggResult.ok v
      | none => AggResult.panicked
  | 0, _ :: _, _ => AggResult.fuelOut
  | fuel + 1, current :: rest, value =>
      match mapGet t.nodes current with
      | none => AggResult.panicked
      | some node =>
          let stack := if 0 < node.children.length
                       then node.children.reverse ++ rest else rest
          let value := match value with
            | some v => some (add v (f node.val))
            | none => some (f node.val)
          aggregate_loop t f add fuel stack value

/-- `Tree::aggregate`: seed the stack with `start_id`, accumulator `None`. -/
def Tree.aggregate (t : Tree T) (start_id : Nat) (f : T → R) (add : R → R → R)
    (fuel : Nat) : AggResult R :=
  aggregate_loop t f add fuel [start_id] none

/-- `Tree::aggregate_root`. -/
def Tree.aggregate_root (t : Tree T) (f : T → R) (add : R → R → R)
    (fuel : Nat) : AggResult R :=
  t.aggregate 0 f add fuel

/-- Trees reachable from `Tree::new` by any sequence of `add_child` calls
(the final state of a call that fails its unwrap included, since that
state is the one observable if the failure is caught). -/
inductive Reachable : Tree T → Prop where
  | construct (v : T) : Reachable (Tree.new v)
  | step (t : Tree T) (p : Nat) (v : T) :
      Reachable t → Reachable (t.add_child p v).2

/-- Trees reachable from `Tree::new` by `add_child` calls each of which
names a parent that already exists at the time of the call. -/
inductive StrictReachable : Tree T → Prop where
  | construct (v : T) : StrictReachable (Tree.new v)
  | step (t : Tree T) (p : Nat) (v : T) :
      StrictReachable t → p < t.node_count → StrictReachable (t.add_child p v).2

/-- One parent-to-child edge of the arena. -/
def ChildStep (t : Tree T) (a b : Nat) : Prop :=
  ∃ n, mapGet t.nodes a = some n ∧ b ∈ n.children

/-- `b` is a proper descendant of `a`. -/
def Descendant (t : Tree T) (a b : Nat) : Prop :=
  Relation.TransGen (ChildStep t) a b

/-- Depth-first visit order of the traversal of `Tree::aggregate` started
at `id`: the node itself, then the subtrees of its children, last child
first (the order in which the stack pops them).  `fuel` bounds the
recursion depth; on the well-formed trees we use it on, `t.node_count`
is always enough fuel. -/
def visit (t : Tree T) : Nat → Nat → List Nat
  | 0, _ => []
  | fuel + 1, id =>
      match mapGet t.nodes id with
      | none => [id]
      | some node => id :: node.children.reverse.flatMap (visit t fuel)

/-- Values of the existing nodes of a list of ids, in order. -/
def node_vals (t : Tree T) (l : List Nat) : List T :=
  l.filterMap (fun id => (mapGet t.nodes id).map TreeNode.val)

/-- One accumulator update of the `aggregate` loop. -/
def acc_step (f : T → R) (add : R → R → R) (value : Option R) (x : T) : Option R :=
  match value with
  | some v => some (add v (f x))
  | none => some (f x)

/-! ### Association-list lemmas -/

theorem mapGet_mapInsert_self {α : Type} (m : List (Nat × α)) (k : Nat) (v : α) :
    mapGet (mapInsert m k v) k = some v := by
  induction m with
  | nil => simp [mapGet, mapInsert]
  | cons hd tl ih =>
      obtain ⟨k1, v1⟩ := hd
      by_cases h : k1 = k
      · subst h; simp [mapGet, mapInsert]
      · simp [mapGet, mapInsert, h, ih]

theorem mapGet_mapInsert_ne {α : Type} {m : List (Nat × α)} {k id : Nat} {v : α}
    (h : id ≠ k) : mapGet (mapInsert m k v) id = mapGet m id := by
  have h' : ¬ k = id := fun hk => h hk.symm
  induction m with
  | nil =>
      simp only [mapInsert, mapGet]
      rw [if_neg h']
  | cons hd tl ih =>
      obtain ⟨k1, v1⟩ := hd
      by_cases h1 : k1 = k
      · subst h1
        simp only [mapInsert, if_pos rfl, mapGet]
        rw [if_neg h', if_neg h']
      · simp only [mapInsert, if_neg h1, mapGet, ih]

theorem length_mapInsert_none {α : Type} {m : List (Nat × α)} {k : Nat} (v : α)
    (h : mapGet m k = none) : (mapInsert m k v).length = m.length + 1 := by
  induction m with
  | nil => simp [mapInsert]
  | cons hd tl ih =>
      obtain ⟨k1, v1⟩ := hd
      by_cases h1 : k1 = k
      · subst h1; simp [mapGet] at h
      · simp [mapGet, h1] at h
        simp [mapInsert, h1, ih h]

theorem length_mapInsert_some {α : Type} {m : List (Nat × α)} {k : Nat} (v w : α)
    (h : mapGet m k = some w) : (mapInsert m k v).length = m.length := by
  induction m with
  | nil => simp [mapGet] at h
  | cons hd tl ih =>
      obtain ⟨k1, v1⟩ := hd
      by_cases h1 : k1 = k
      · subst h1; simp [mapInsert]
      · simp [mapGet, h1] at h
        simp [mapInsert, h1, ih h]

/-! ### Characterization of the tree operations -/

theorem create_node_eq (t : Tree T) (v : T) :
    t.create_node v =
      (t.node_count,
       { nodes := mapInsert t.nodes t.node_count (TreeNode.new v),
         node_count := t.node_count + 1 }) := by
  simp [Tree.create_node]

theorem tree_new_eq (v : T) :
    Tree.new v = { nodes := [(0, TreeNode.new v)], node_count := 1 } := by
  simp [Tree.new, create_node_eq, mapInsert]

/-- The id returned by `add_child`: `some node_count` exactly when the
parent lookup succeeds, which happens when `parent_id` is an existing key
or is the freshly minted id itself. -/
theorem add_child_fst (t : Tree T) (p : Nat) (v : T) :
    (t.add_child p v).1 =
      if p = t.node_count ∨ (mapGet t.nodes p).isSome
      then some t.node_count else none := by
  by_cases hp : p = t.node_count
  · subst hp
    simp [Tree.add_child, create_node_eq, mapGet_mapInsert_self]
  · have h1 : mapGet (mapInsert t.nodes t.node_count (TreeNode.new v)) t.node_count
        = some (TreeNode.new v) := mapGet_mapInsert_self _ _ _
    have h2 : ∀ w : TreeNode T,
        mapGet (mapInsert (mapInsert t.nodes t.node_count (TreeNode.new v)) t.node_count w) p
          = mapGet t.nodes p := by
      intro w
      rw [mapGet_mapInsert_ne hp, mapGet_mapInsert_ne hp]
    cases hg : mapGet t.nodes p with
    | none =>
        simp only [Tree.add_child, create_node_eq, h1, h2, hg]
        simp [hp]
    | some pn =>
        simp only [Tree.add_child, create_node_eq, h1, h2, hg]
        simp

/-- `add_child` always increments `node_count`, whether or not it fails. -/
theorem add_child_count (t : Tree T) (p : Nat) (v : T) :
    (t.add_child p v).2.node_count = t.node_count + 1 := by
  by_cases hp : p = t.node_count
  · subst hp
    simp [Tree.add_child, create_node_eq, mapGet_mapInsert_self]
  · have h1 : mapGet (mapInsert t.nodes t.node_count (TreeNode.new v)) t.node_count
        = some (TreeNode.new v) := mapGet_mapInsert_self _ _ _
    have h2 : ∀ w : TreeNode T,
        mapGet (mapInsert (mapInsert t.nodes t.node_count (TreeNode.new v)) t.node_count w) p
          = mapGet t.nodes p := by
      intro w
      rw [mapGet_mapInsert_ne hp, mapGet_mapInsert_ne hp]
    cases hg : mapGet t.nodes p with
    | none => simp [Tree.add_child, create_node_eq, h1, h2, hg]
    | some pn => simp [Tree.add_child, create_node_eq, h1, h2, hg]

/-- When `parent_id` is not the freshly minted id, the new child record is
stored at key `node_count` with parent `parent_id` and no children —
also when the parent lookup then fails. -/
theorem add_child_get_child (t : Tree T) {p : Nat} (v : T) (hp : p ≠ t.node_count) :
    mapGet (t.add_child p v).2.nodes t.node_count =
      some { val := v, parent := some p, children := [] } := by
  have hp' : t.node_count ≠ p := fun h => hp h.symm
  have h2 : ∀ w2 w : TreeNode T,
      mapGet (mapInsert (mapInsert t.nodes t.node_count w2) t.node_count w) p
        = mapGet t.nodes p := by
    intro w2 w
    rw [mapGet_mapInsert_ne hp, mapGet_mapInsert_ne hp]
  cases hg : mapGet t.nodes p with
  | none =>
      simp [Tree.add_child, create_node_eq, h2, hg, mapGet_mapInsert_self, TreeNode.new]
  | some pn =>
      simp [Tree.add_child, create_node_eq, h2, hg, TreeNode.new,
        mapGet_mapInsert_ne hp', mapGet_mapInsert_self]

/-- On success with an existing distinct parent, the parent record keeps
its value and parent and gains the new id at the end of its children. -/
theorem add_child_get_parent (t : Tree T) {p : Nat} (v : T) {pn : TreeNode T}
    (hg : mapGet t.nodes p = some pn) (hp : p ≠ t.node_count) :
    mapGet (t.add_child p v).2.nodes p =
      some { val := pn.val, parent := pn.parent,
             children := pn.children ++ [t.node_count] } := by
  have h2 : ∀ w2 w : TreeNode T,
      mapGet (mapInsert (mapInsert t.nodes t.node_count w2) t.node_count w) p
        = mapGet t.nodes p := by
    intro w2 w
    rw [mapGet_mapInsert_ne hp, mapGet_mapInsert_ne hp]
  simp [Tree.add_child, create_node_eq, h2, hg, TreeNode.new, mapGet_mapInsert_self]

/-- Every key other than `parent_id` and the freshly minted id is left
unchanged by `add_child`. -/
theorem add_child_get_other (t : Tree T) {p : Nat} (v : T) {id : Nat}
    (hid1 : id ≠ p) (hid2 : id ≠ t.node_count) :
    mapGet (t.add_child p v).2.nodes id = mapGet t.nodes id := by
  by_cases hp : p = t.node_count
  · subst hp
    simp [Tree.add_child, create_node_eq, mapGet_mapInsert_self,
      mapGet_mapInsert_ne hid2]
  · have h1 : mapGet (mapInsert t.nodes t.node_count (TreeNode.new v)) t.node_count
        = some (TreeNode.new v) := mapGet_mapInsert_self _ _ _
    have h2 : ∀ w : TreeNode T,
        mapGet (mapInsert (mapInsert t.nodes t.node_count (TreeNode.new v)) t.node_count w) p
          = mapGet t.nodes p := by
      intro w
      rw [mapGet_mapInsert_ne hp, mapGet_mapInsert_ne hp]
    cases hg : mapGet t.nodes p with
    | none =>
        simp [Tree.add_child, create_node_eq, h1, h2, hg,
          mapGet_mapInsert_ne hid2]
    | some pn =>
        simp [Tree.add_child, create_node_eq, h1, h2, hg,
          mapGet_mapInsert_ne hid2, mapGet_mapInsert_ne hid1]

/-- When the parent lookup fails (`parent_id` absent and not the fresh id),
keys other than the fresh id are unchanged — `parent_id` itself included. -/
theorem add_child_fail_get_other (t : Tree T) {p : Nat} (v : T)
    (hg : mapGet t.nodes p = none) (hp : p ≠ t.node_count) {id : Nat}
    (hid : id ≠ t.node_count) :
    mapGet (t.add_child p v).2.nodes id = mapGet t.nodes id := by
  have h1 : mapGet (mapInsert t.nodes t.node_count (TreeNode.new v)) t.node_count
      = some (TreeNode.new v) := mapGet_mapInsert_self _ _ _
  have h2 : ∀ w : TreeNode T,
      mapGet (mapInsert (mapInsert t.nodes t.node_count (TreeNode.new v)) t.node_count w) p
        = mapGet t.nodes p := by
    intro w
    rw [mapGet_mapInsert_ne hp, mapGet_mapInsert_ne hp]
  simp [Tree.add_child, create_node_eq, h1, h2, hg, mapGet_mapInsert_ne hid]

/-- `add_child` with `parent_id = node_count` (the id about to be minted):
silently succeeds and produces a record that is its own parent and its own
child. -/
theorem add_child_self_eq (t : Tree T) (v : T) :
    t.add_child t.node_count v =
      (some t.node_count,
       { nodes := mapInsert
           (mapInsert (mapInsert t.nodes t.node_count (TreeNode.new v)) t.node_count
             { val := v, parent := some t.node_count, children := [] })
           t.node_count
           { val := v, parent := some t.node_count, children := [t.node_count] },
         node_count := t.node_count + 1 }) := by
  simp [Tree.add_child, create_node_eq, mapGet_mapInsert_self, TreeNode.new]

/-- The record produced by self-parenting `add_child`: its own parent and
its own single child. -/
theorem add_child_self_get (t : Tree T) (v : T) :
    mapGet (t.add_child t.node_count v).2.nodes t.node_count =
      some { val := v, parent := some t.node_count,
             children := [t.node_count] } := by
  rw [add_child_self_eq]
  simp [mapGet_mapInsert_self]

theorem add_child_self_get_other (t : Tree T) (v : T) {id : Nat}
    (hid : id ≠ t.node_count) :
    mapGet (t.add_child t.node_count v).2.nodes id = mapGet t.nodes id := by
  rw [add_child_self_eq]
  simp only [mapGet_mapInsert_ne hid]

/-! ### Invariants of reachable trees -/

/-- Invariants every tree reachable by `Tree::new` and arbitrary
`add_child` calls satisfies: the arena's keys are exactly
`0, ..., node_count - 1`, the arena has `node_count` entries, and every
id stored in a children list names an existing node. -/
structure WF0 (t : Tree T) : Prop where
  keys : ∀ id, (mapGet t.nodes id).isSome ↔ id < t.node_count
  len : t.nodes.length = t.node_count
  child_lt : ∀ id n, mapGet t.nodes id = some n → ∀ c ∈ n.children, c < t.node_count

theorem get_none_of_keys {t : Tree T}
    (hk : ∀ id, (mapGet t.nodes id).isSome ↔ id < t.node_count) {id : Nat}
    (hid : t.node_count ≤ id) : mapGet t.nodes id = none := by
  cases hg : mapGet t.nodes id with
  | none => rfl
  | some n =>
      have : id < t.node_count := (hk id).mp (by simp [hg])
      omega

theorem get_some_of_keys {t : Tree T}
    (hk : ∀ id, (mapGet t.nodes id).isSome ↔ id < t.node_count) {id : Nat}
    (hid : id < t.node_count) : ∃ n, mapGet t.nodes id = some n := by
  cases hg : mapGet t.nodes id with
  | none => exact absurd ((hk id).mpr hid) (by simp [hg])
  | some n => exact ⟨n, rfl⟩

/-- Arena size after `add_child`, when the minted key is fresh. -/
theorem add_child_length (t : Tree T) (p : Nat) (v : T)
    (h : mapGet t.nodes t.node_count = none) :
    (t.add_child p v).2.nodes.length = t.nodes.length + 1 := by
  have l1 : (mapInsert t.nodes t.node_count (TreeNode.new v)).length
      = t.nodes.length + 1 := length_mapInsert_none _ h
  by_cases hp : p = t.node_count
  · subst hp
    rw [add_child_self_eq]
    rw [length_mapInsert_some _ _ (mapGet_mapInsert_self _ _ _),
      length_mapInsert_some _ _ (mapGet_mapInsert_self _ _ _), l1]
  · have h2 : ∀ w2 w : TreeNode T,
        mapGet (mapInsert (mapInsert t.nodes t.node_count w2) t.node_count w) p
          = mapGet t.nodes p := by
      intro w2 w
      rw [mapGet_mapInsert_ne hp, mapGet_mapInsert_ne hp]
    cases hg : mapGet t.nodes p with
    | none =>
        simp only [Tree.add_child, create_node_eq, mapGet_mapInsert_self, h2, hg]
        rw [length_mapInsert_some _ _ (mapGet_mapInsert_self _ _ _), l1]
    | some pn =>
        simp only [Tree.add_child, create_node_eq, mapGet_mapInsert_self, h2, hg]
        rw [length_mapInsert_some _ _ ((h2 _ _).trans hg),
          length_mapInsert_some _ _ (mapGet_mapInsert_self _ _ _), l1]

theorem wf0_new (v : T) : WF0 (Tree.new v) := by
  refine ⟨?_, ?_, ?_⟩
  · intro id
    cases id with
    | zero => simp [tree_new_eq, mapGet]
    | succ n => simp [tree_new_eq, mapGet]
  · simp [tree_new_eq]
  · intro id n h c hc
    rw [tree_new_eq] at h
    simp only [mapGet] at h
    by_cases h0 : (0 : Nat) = id
    · rw [if_pos h0] at h
      cases h
      simp [TreeNode.new] at hc
    · rw [if_neg h0] at h
      cases h

theorem wf0_add_child (t : Tree T) (p : Nat) (v : T) (h : WF0 t) :
    WF0 (t.add_child p v).2 := by
  have hfresh : mapGet t.nodes t.node_count = none :=
    get_none_of_keys h.keys (Nat.le_refl _)
  have hcount := add_child_count t p v
  have hlen := add_child_length t p v hfresh
  by_cases hp : p = t.node_count
  · -- parent id is the id about to be minted: self-parenting silent success
    subst hp
    refine ⟨?_, ?_, ?_⟩
    · intro id
      rw [hcount]
      by_cases hid : id = t.node_count
      · subst hid
        rw [add_child_self_get]
        simp
      · rw [add_child_self_get_other t v hid, h.keys id]
        omega
    · rw [hlen, h.len, hcount]
    · intro id n hn c hc
      rw [hcount]
      by_cases hid : id = t.node_count
      · subst hid
        rw [add_child_self_get] at hn
        cases hn
        simp only [List.mem_singleton] at hc
        subst hc
        omega
      · rw [add_child_self_get_other t v hid] at hn
        have := h.child_lt id n hn c hc
        omega
  · by_cases hex : p < t.node_count
    · -- existing parent: normal success
      obtain ⟨pn, hg⟩ := get_some_of_keys h.keys hex
      refine ⟨?_, ?_, ?_⟩
      · intro id
        by_cases hid : id = t.node_count
        · subst hid
          rw [add_child_get_child t v hp]
          simp [hcount]
        · by_cases hidp : id = p
          · subst hidp
            rw [add_child_get_parent t v hg hp]
            simp [hcount]
            omega
          · rw [add_child_get_other t v hidp hid, hcount, h.keys id]
            omega
      · rw [hlen, h.len, hcount]
      · intro id n hn c hc
        rw [hcount]
        by_cases hid : id = t.node_count
        · subst hid
          rw [add_child_get_child t v hp] at hn
          cases hn
          simp at hc
        · by_cases hidp : id = p
          · subst hidp
            rw [add_child_get_parent t v hg hp] at hn
            cases hn
            simp only [List.mem_append, List.mem_singleton] at hc
            rcases hc with hc | hc
            · have := h.child_lt _ pn hg c hc
              omega
            · omega
          · rw [add_child_get_other t v hidp hid] at hn
            have := h.child_lt id n hn c hc
            omega
    · -- absent parent: the lookup of `parent_id` fails after the insert
      have hgp : mapGet t.nodes p = none := get_none_of_keys h.keys (by omega)
      refine ⟨?_, ?_, ?_⟩
      · intro id
        by_cases hid : id = t.node_count
        · subst hid
          rw [add_child_get_child t v hp]
          simp [hcount]
        · rw [add_child_fail_get_other t v hgp hp hid, hcount, h.keys id]
          omega
      · rw [hlen, h.len, hcount]
      · intro id n hn c hc
        rw [hcount]
        by_cases hid : id = t.node_count
        · subst hid
          rw [add_child_get_child t v hp] at hn
          cases hn
          simp at hc
        · rw [add_child_fail_get_other t v hgp hp hid] at hn
          have := h.child_lt id n hn c hc
          omega

/-- Every reachable tree satisfies the `WF0` invariants. -/
theorem reachable_wf0 {t : Tree T} (h : Reachable t) : WF0 t := by
  induction h with
  | construct v => exact wf0_new v
  | step t p v _ ih => exact wf0_add_child t p v ih

theorem strict_reachable_reachable {t : Tree T} (h : StrictReachable t) :
    Reachable t := by
  induction h with
  | construct v => exact Reachable.construct v
  | step t p v _ _ ih => exact Reachable.step t p v ih

/-! ### Concrete trees used by witnesses and counterexamples -/

/-- The tree of the repository's `test_aggregate` test: root value 5,
children 8 and 12 under the root, child 20 under the node holding 12. -/
def demo_tree : Tree Nat :=
  (((((Tree.new 5).add_child 0 8).2.add_child 0 12).2).add_child 2 20).2

theorem demo_tree_strict : StrictReachable demo_tree := by
  have h1 : StrictReachable (Tree.new (5 : Nat)) := StrictReachable.construct 5
  have h2 := StrictReachable.step _ 0 8 h1 (by decide)
  have h3 := StrictReachable.step _ 0 12 h2 (by decide)
  exact StrictReachable.step _ 2 20 h3 (by decide)

theorem demo_tree_reachable : Reachable demo_tree :=
  strict_reachable_reachable demo_tree_strict

/-- The smallest self-parenting tree: `add_child` called with the not yet
existing id 1 on a freshly constructed tree.  The call succeeds and node 1
becomes its own parent and its own child. -/
def loop_tree : Tree Nat :=
  ((Tree.new 0).add_child 1 0).2

theorem loop_tree_reachable : Reachable loop_tree :=
  Reachable.step _ 1 0 (Reachable.construct 0)

/-! ### The aggregate loop cannot fail its unwraps on a reachable tree -/

theorem aggregate_loop_no_panicked (t : Tree T) (f : T → R) (add : R → R → R)
    (h : WF0 t) :
    ∀ (fuel : Nat) (stack : List Nat) (value : Option R),
      (∀ id ∈ stack, id < t.node_count) → (stack = [] → value.isSome) →
      aggregate_loop t f add fuel stack value ≠ AggResult.panicked := by
  intro fuel
  induction fuel with
  | zero =>
      intro stack value hstack hval
      cases stack with
      | nil =>
          cases hv : value with
          | none => simp [hv] at hval
          | some v => simp [aggregate_loop, hv]
      | cons current rest => simp [aggregate_loop]
  | succ fuel ih =>
      intro stack value hstack hval
      cases stack with
      | nil =>
          cases hv : value with
          | none => simp [hv] at hval
          | some v => simp [aggregate_loop, hv]
      | cons current rest =>
          have hcur : current < t.node_count := hstack current (by simp)
          obtain ⟨node, hnode⟩ := get_some_of_keys h.keys hcur
          have hrw : ∀ w : Option R,
              aggregate_loop t f add (fuel + 1) (current :: rest) w =
              aggregate_loop t f add fuel
                (if 0 < node.children.length
                 then node.children.reverse ++ rest else rest)
                (match w with
                 | some v => some (add v (f node.val))
                 | none => some (f node.val)) := by
            intro w
            simp [aggregate_loop, hnode]
          rw [hrw value]
          apply ih
          · intro id hid
            by_cases hc : 0 < node.children.length
            · rw [if_pos hc] at hid
              rcases List.mem_append.mp hid with hid | hid
              · exact h.child_lt current node hnode id (List.mem_reverse.mp hid)
              · exact hstack id (by simp [hid])
            · rw [if_neg hc] at hid
              exact hstack id (by simp [hid])
          · intro _
            cases value <;> simp

/-! ### Claims C1, C2, C6, C7, C8, C9, C10 -/

/-- C1 (amended).  For every reachable tree and every identity strictly
greater than `node_count` — such an identity was never returned by
`Tree::new` or `add_child` and is not the id about to be minted —
`add_child` fails loudly: the parent lookup's unwrap fails and no id is
returned.  (The identity `node_count` itself, although never returned
either, is silently accepted; see the counterexample.) -/
theorem claim_c1 (t : Tree T) (p : Nat) (v : T) (h : Reachable t)
    (hp : t.node_count < p) : (t.add_child p v).1 = none := by
  have hw := reachable_wf0 h
  rw [add_child_fst]
  rw [if_neg]
  intro hor
  rcases hor with hor | hor
  · omega
  · rw [get_none_of_keys hw.keys (by omega)] at hor
    simp at hor

theorem claim_c1_witness :
    (Tree.new (5 : Nat)).node_count < 3 ∧
      ((Tree.new (5 : Nat)).add_child 3 8).1 = none :=
  ⟨by decide, claim_c1 (Tree.new 5) 3 8 (Reachable.construct 5) (by decide)⟩

/-- C1 fails as stated: on a freshly constructed tree the identity 1 was
never returned by any operation, yet `add_child 1` silently succeeds and
creates a node. -/
theorem claim_c1_counterexample :
    Reachable (Tree.new (5 : Nat)) ∧
      (Tree.new (5 : Nat)).node_count = 1 ∧
      ((Tree.new (5 : Nat)).add_child 1 8).1 = some 1 ∧
      ((Tree.new (5 : Nat)).add_child 1 8).2.node_count = 2 :=
  ⟨Reachable.construct 5, by decide, by decide, by decide⟩

/-- C2 (amended).  A failing `add_child` (parent id strictly greater than
`node_count` on a reachable tree) is not atomic: at the moment of the
failing unwrap the arena already holds the new child record (with the bad
parent id) and `node_count` is already incremented; every pre-existing
node, its parent and its children sequence included, is unchanged. -/
theorem claim_c2 (t : Tree T) (p : Nat) (v : T) (h : Reachable t)
    (hp : t.node_count < p) :
    (t.add_child p v).1 = none ∧
      (t.add_child p v).2.node_count = t.node_count + 1 ∧
      mapGet (t.add_child p v).2.nodes t.node_count =
        some { val := v, parent := some p, children := [] } ∧
      (∀ id, id ≠ t.node_count →
        mapGet (t.add_child p v).2.nodes id = mapGet t.nodes id) := by
  have hw := reachable_wf0 h
  have hne : p ≠ t.node_count := by omega
  have hgp : mapGet t.nodes p = none := get_none_of_keys hw.keys (by omega)
  exact ⟨claim_c1 t p v h hp, add_child_count t p v,
    add_child_get_child t v hne,
    fun id hid => add_child_fail_get_other t v hgp hne hid⟩

theorem claim_c2_witness :
    (Tree.new (5 : Nat)).node_count < 7 ∧
      ((Tree.new (5 : Nat)).add_child 7 8).1 = none ∧
      ((Tree.new (5 : Nat)).add_child 7 8).2.node_count =
        (Tree.new (5 : Nat)).node_count + 1 ∧
      mapGet ((Tree.new (5 : Nat)).add_child 7 8).2.nodes
          (Tree.new (5 : Nat)).node_count =
        some { val := 8, parent := some 7, children := [] } ∧
      mapGet ((Tree.new (5 : Nat)).add_child 7 8).2.nodes 0 =
        mapGet (Tree.new (5 : Nat)).nodes 0 := by
  have h := claim_c2 (Tree.new (5 : Nat)) 7 8 (Reachable.construct 5) (by decide)
  exact ⟨by decide, h.1, h.2.1, h.2.2.1, h.2.2.2 0 (by decide)⟩

/-- C2 fails as stated: `add_child 5` on a freshly constructed tree (one
node, so parent id 5 does not exist) fails, yet afterwards `node_count`
and the arena differ from their values before the call. -/
theorem claim_c2_counterexample :
    Reachable (Tree.new (5 : Nat)) ∧
      ((Tree.new (5 : Nat)).add_child 5 8).1 = none ∧
      ((Tree.new (5 : Nat)).add_child 5 8).2.node_count = 2 ∧
      (Tree.new (5 : Nat)).node_count = 1 ∧
      ((Tree.new (5 : Nat)).add_child 5 8).2.nodes.length = 2 :=
  ⟨Reachable.construct 5, by decide, by decide, by decide, by decide⟩

/-- C6.  On every reachable tree, aggregating from an existing start id
can never fail an unwrap: the stack is seeded with the start node, the
accumulator is `some` from the first iteration on, and the final unwrap
of the accumulator always succeeds — whatever the fuel, the loop never
reaches the `panicked` outcome. -/
theorem claim_c6 (t : Tree T) (f : T → R) (add : R → R → R) (start : Nat)
    (h : Reachable t) (hs : start < t.node_count) (fuel : Nat) :
    t.aggregate start f add fuel ≠ AggResult.panicked := by
  apply aggregate_loop_no_panicked t f add (reachable_wf0 h)
  · intro id hid
    simp at hid
    omega
  · intro hnil
    cases hnil

theorem claim_c6_witness :
    0 < demo_tree.node_count ∧
      demo_tree.aggregate 0 (fun x => x) (fun a b => a + b) 2 ≠
        AggResult.panicked :=
  ⟨by decide,
   claim_c6 demo_tree (fun x => x) (fun a b => a + b) 0 demo_tree_reachable
     (by decide) 2⟩

/-- C7.  In every reachable tree `node_count` equals the number of arena
entries, and the arena's keys are exactly the identities
`0, ..., node_count - 1`: ids are minted sequentially from 0 (the root)
and never reused. -/
theorem claim_c7 (t : Tree T) (h : Reachable t) :
    t.nodes.length = t.node_count ∧
      (∀ id, (mapGet t.nodes id).isSome ↔ id < t.node_count) := by
  have hw := reachable_wf0 h
  exact ⟨hw.len, hw.keys⟩

theorem claim_c7_witness :
    demo_tree.nodes.length = demo_tree.node_count ∧
      ((mapGet demo_tree.nodes 3).isSome ↔ 3 < demo_tree.node_count) ∧
      ((mapGet demo_tree.nodes 4).isSome ↔ 4 < demo_tree.node_count) := by
  have h := claim_c7 demo_tree demo_tree_reachable
  exact ⟨h.1, h.2 3, h.2 4⟩

/-- C8.  On every reachable tree, `add_child` with an existing parent `p`
succeeds, the returned id `c = node_count` has `get_parent_id c = Some p`,
and `c` is appended at the end of `p`'s insertion-ordered children
sequence, where it occurs exactly once. -/
theorem claim_c8 (t : Tree T) (p : Nat) (v : T) (h : Reachable t)
    (hp : p < t.node_count) :
    (t.add_child p v).1 = some t.node_count ∧
      (t.add_child p v).2.get_parent_id t.node_count = some (some p) ∧
      (t.add_child p v).2.get_child_ids p =
        (t.get_child_ids p).map (fun l => l ++ [t.node_count]) ∧
      ((t.add_child p v).2.get_child_ids p).map
          (fun l => l.count t.node_count) = some 1 := by
  have hw := reachable_wf0 h
  have hne : p ≠ t.node_count := by omega
  obtain ⟨pn, hg⟩ := get_some_of_keys hw.keys hp
  have hcount : pn.children.count t.node_count = 0 := by
    rw [List.count_eq_zero]
    intro hmem
    have := hw.child_lt p pn hg _ hmem
    omega
  refine ⟨?_, ?_, ?_, ?_⟩
  · rw [add_child_fst, if_pos]
    right
    simp [hg]
  · rw [Tree.get_parent_id, add_child_get_child t v hne]
    rfl
  · rw [Tree.get_child_ids, Tree.get_child_ids, add_child_get_parent t v hg hne, hg]
    rfl
  · rw [Tree.get_child_ids, add_child_get_parent t v hg hne]
    simp [List.count_append, hcount]

theorem claim_c8_witness :
    2 < demo_tree.node_count ∧
      (demo_tree.add_child 2 30).1 = some demo_tree.node_count ∧
      (demo_tree.add_child 2 30).2.get_parent_id demo_tree.node_count =
        some (some 2) ∧
      (demo_tree.add_child 2 30).2.get_child_ids 2 =
        (demo_tree.get_child_ids 2).map (fun l => l ++ [demo_tree.node_count]) ∧
      ((demo_tree.add_child 2 30).2.get_child_ids 2).map
          (fun l => l.count demo_tree.node_count) = some 1 := by
  have h := claim_c8 demo_tree 2 30 demo_tree_reachable (by decide)
  exact ⟨by decide, h.1, h.2.1, h.2.2.1, h.2.2.2⟩

/-- C9.  Writing `w` through `get_mut_val id` and then reading
`get_val id` observes `w`, for every tree and existing identity. -/
theorem claim_c9 (t : Tree T) (id : Nat) (w : T)
    (h : (t.get_val id).isSome) :
    ∃ t', t.set_val id w = some t' ∧ t'.get_val id = some w := by
  rw [Tree.get_val] at h
  cases hg : mapGet t.nodes id with
  | none => rw [hg] at h; simp at h
  | some n =>
      refine ⟨_, by rw [Tree.set_val, hg], ?_⟩
      rw [Tree.get_val]
      simp [mapGet_mapInsert_self]

theorem claim_c9_witness :
    (demo_tree.get_val 1).isSome ∧
      ∃ t', demo_tree.set_val 1 99 = some t' ∧ t'.get_val 1 = some 99 :=
  ⟨by decide, claim_c9 demo_tree 1 99 (by decide)⟩

/-- C10.  For every tree with current node count `n`, `add_child n v`
does not fail: it returns `n`, and the node stored at `n` has
`parent = Some n` and contains `n` in its own children sequence — the
child record is inserted before the parent id is resolved, so the new
node acts as its own parent. -/
theorem claim_c10 (t : Tree T) (v : T) :
    (t.add_child t.node_count v).1 = some t.node_count ∧
      (t.add_child t.node_count v).2.get_parent_id t.node_count =
        some (some t.node_count) ∧
      (t.add_child t.node_count v).2.get_child_ids t.node_count =
        some [t.node_count] := by
  refine ⟨?_, ?_, ?_⟩
  · rw [add_child_fst, if_pos (Or.inl rfl)]
  · rw [Tree.get_parent_id, add_child_self_get]
    rfl
  · rw [Tree.get_child_ids, add_child_self_get]
    rfl

/-! ### Invariants of strictly reachable trees -/

/-- Invariants of trees built with parents that exist at call time: keys
are `0, ..., node_count - 1`, children ids are strictly greater than their
parent's id and in range, each child record points back at its unique
parent, children lists have no duplicates, and parent ids are strictly
smaller than their node's id. -/
structure WF (t : Tree T) : Prop where
  keys : ∀ id, (mapGet t.nodes id).isSome ↔ id < t.node_count
  child_gt : ∀ id n, mapGet t.nodes id = some n →
      ∀ c ∈ n.children, id < c ∧ c < t.node_count
  child_parent : ∀ id n, mapGet t.nodes id = some n → ∀ c ∈ n.children,
      ∀ cn, mapGet t.nodes c = some cn → cn.parent = some id
  children_nodup : ∀ id n, mapGet t.nodes id = some n → n.children.Nodup
  parent_lt : ∀ id n, mapGet t.nodes id = some n →
      ∀ p, n.parent = some p → p < id

theorem wf_new (v : T) : WF (Tree.new v) := by
  have hget : ∀ id n, mapGet (Tree.new v).nodes id = some n →
      id = 0 ∧ n = TreeNode.new v := by
    intro id n h
    rw [tree_new_eq] at h
    simp only [mapGet] at h
    by_cases h0 : (0 : Nat) = id
    · rw [if_pos h0] at h
      cases h
      exact ⟨h0.symm, rfl⟩
    · rw [if_neg h0] at h
      cases h
  refine ⟨(wf0_new v).keys, ?_, ?_, ?_, ?_⟩
  · intro id n h c hc
    obtain ⟨_, rfl⟩ := hget id n h
    simp [TreeNode.new] at hc
  · intro id n h c hc
    obtain ⟨_, rfl⟩ := hget id n h
    simp [TreeNode.new] at hc
  · intro id n h
    obtain ⟨_, rfl⟩ := hget id n h
    simp [TreeNode.new]
  · intro id n h p hp
    obtain ⟨_, rfl⟩ := hget id n h
    simp [TreeNode.new] at hp

theorem wf_add_child (t : Tree T) (p : Nat) (v : T) (h : WF t)
    (hp : p < t.node_count) : WF (t.add_child p v).2 := by
  have hne : p ≠ t.node_count := by omega
  obtain ⟨pn, hg⟩ := get_some_of_keys h.keys hp
  have hcount := add_child_count t p v
  have hchild := add_child_get_child t v hne
  have hparent := add_child_get_parent t v hg hne
  have hold : ∀ {id : Nat}, id ≠ p → id ≠ t.node_count →
      mapGet (t.add_child p v).2.nodes id = mapGet t.nodes id :=
    fun hid1 hid2 => add_child_get_other t v hid1 hid2
  have hoc : ∀ c ∈ pn.children, p < c ∧ c < t.node_count :=
    h.child_gt p pn hg
  refine ⟨?_, ?_, ?_, ?_, ?_⟩
  · intro id
    rw [hcount]
    by_cases hid : id = t.node_count
    · subst hid
      rw [hchild]
      simp
    · by_cases hidp : id = p
      · subst hidp
        rw [hparent]
        simp
        omega
      · rw [hold hidp hid, h.keys id]
        omega
  · intro id n hn c hc
    rw [hcount]
    by_cases hid : id = t.node_count
    · subst hid
      rw [hchild] at hn
      cases hn
      simp at hc
    · by_cases hidp : id = p
      · subst hidp
        rw [hparent] at hn
        cases hn
        simp only [List.mem_append, List.mem_singleton] at hc
        rcases hc with hc | hc
        · have := hoc c hc
          omega
        · subst hc
          omega
      · rw [hold hidp hid] at hn
        have := h.child_gt id n hn c hc
        omega
  · intro id n hn c hc cn hcn
    by_cases hid : id = t.node_count
    · subst hid
      rw [hchild] at hn
      cases hn
      simp at hc
    · by_cases hidp : id = p
      · subst hidp
        rw [hparent] at hn
        cases hn
        simp only [List.mem_append, List.mem_singleton] at hc
        rcases hc with hc | hc
        · have hcr := hoc c hc
          have hc1 : c ≠ id := by omega
          have hc2 : c ≠ t.node_count := by omega
          rw [hold hc1 hc2] at hcn
          exact h.child_parent id pn hg c hc cn hcn
        · subst hc
          rw [hchild] at hcn
          cases hcn
          rfl
      · rw [hold hidp hid] at hn
        have hcr := h.child_gt id n hn c hc
        have hc2 : c ≠ t.node_count := by omega
        by_cases hc1 : c = p
        · subst hc1
          rw [hparent] at hcn
          cases hcn
          have := h.child_parent id n hn _ hc pn hg
          simpa using this
        · rw [hold hc1 hc2] at hcn
          exact h.child_parent id n hn c hc cn hcn
  · intro id n hn
    by_cases hid : id = t.node_count
    · subst hid
      rw [hchild] at hn
      cases hn
      simp
    · by_cases hidp : id = p
      · subst hidp
        rw [hparent] at hn
        cases hn
        simp only
        rw [List.nodup_append]
        refine ⟨h.children_nodup id pn hg, by simp, ?_⟩
        intro a ha hmem
        simp only [List.mem_singleton] at hmem
        subst hmem
        have := hoc _ ha
        omega
      · rw [hold hidp hid] at hn
        exact h.children_nodup id n hn
  · intro id n hn q hq
    by_cases hid : id = t.node_count
    · subst hid
      rw [hchild] at hn
      cases hn
      simp only at hq
      cases hq
      omega
    · by_cases hidp : id = p
      · subst hidp
        rw [hparent] at hn
        cases hn
        exact h.parent_lt id pn hg q hq
      · rw [hold hidp hid] at hn
        exact h.parent_lt id n hn q hq

/-- Every strictly reachable tree satisfies the `WF` invariants. -/
theorem strict_reachable_wf {t : Tree T} (h : StrictReachable t) : WF t := by
  induction h with
  | construct v => exact wf_new v
  | step t p v _ hp ih => exact wf_add_child t p v ih hp

/-! ### The descendant relation on a well-formed tree -/

theorem child_step_lt {t : Tree T} (h : WF t) {a b : Nat}
    (hs : ChildStep t a b) : a < b ∧ b < t.node_count := by
  obtain ⟨n, hn, hb⟩ := hs
  exact h.child_gt a n hn b hb

theorem rtg_le {t : Tree T} (h : WF t) {a b : Nat}
    (hr : Relation.ReflTransGen (ChildStep t) a b) : a ≤ b := by
  induction hr with
  | refl => exact Nat.le_refl _
  | tail _ hs ih => exact Nat.le_trans ih (Nat.le_of_lt (child_step_lt h hs).1)

theorem descendant_lt {t : Tree T} (h : WF t) {a b : Nat}
    (hr : Descendant t a b) : a < b := by
  induction hr with
  | single hs => exact (child_step_lt h hs).1
  | tail _ hs ih => exact Nat.lt_trans ih (child_step_lt h hs).1

/-- Parents are unique: two edges into the same node start at the same
node, because the child record stores its parent. -/
theorem parent_unique {t : Tree T} (h : WF t) {y z x : Nat}
    (h1 : ChildStep t y x) (h2 : ChildStep t z x) : y = z := by
  obtain ⟨ny, hny, hxy⟩ := h1
  obtain ⟨nz, hnz, hxz⟩ := h2
  have hxlt : x < t.node_count := (h.child_gt y ny hny x hxy).2
  obtain ⟨nx, hnx⟩ := get_some_of_keys h.keys hxlt
  have p1 := h.child_parent y ny hny x hxy nx hnx
  have p2 := h.child_parent z nz hnz x hxz nx hnx
  rw [p1] at p2
  cases p2
  rfl

/-- Two ancestors of the same node lie on one chain. -/
theorem ancestors_chain {t : Tree T} (h : WF t) {a x : Nat}
    (ha : Relation.ReflTransGen (ChildStep t) a x) :
    ∀ b, Relation.ReflTransGen (ChildStep t) b x →
      Relation.ReflTransGen (ChildStep t) a b ∨
      Relation.ReflTransGen (ChildStep t) b a := by
  induction ha with
  | refl => exact fun b hb => Or.inr hb
  | tail hay hyx ih =>
      intro b hb
      rcases Relation.ReflTransGen.cases_tail hb with hbx | ⟨z, hbz, hzx⟩
      · subst hbx
        exact Or.inl (Relation.ReflTransGen.tail (by assumption) hyx)
      · have hyz := parent_unique h hzx hyx
        subst hyz
        exact ih b hbz

/-- Distinct children of one node have disjoint descendant cones. -/
theorem sibling_eq {t : Tree T} (h : WF t) {id : Nat} {n : TreeNode T}
    (hn : mapGet t.nodes id = some n) {c1 c2 : Nat}
    (hc1 : c1 ∈ n.children) (hc2 : c2 ∈ n.children)
    (hr : Relation.ReflTransGen (ChildStep t) c1 c2) : c1 = c2 := by
  rcases Relation.ReflTransGen.cases_tail hr with he | ⟨z, hcz, hzc⟩
  · exact he.symm
  · have hz : z = id := parent_unique h hzc ⟨n, hn, hc2⟩
    have h1 := rtg_le h hcz
    have h2 := (h.child_gt id n hn c1 hc1).1
    omega

/-! ### The visit list -/

theorem visit_head (t : Tree T) (fuel : Nat) (hf : 0 < fuel) (id : Nat) :
    ∃ tl, visit t fuel id = id :: tl := by
  cases fuel with
  | zero => omega
  | succ fuel =>
      cases hg : mapGet t.nodes id with
      | none => exact ⟨[], by simp [visit, hg]⟩
      | some node =>
          exact ⟨node.children.reverse.flatMap (visit t fuel), by simp [visit, hg]⟩

theorem visit_ge {t : Tree T} (h : WF t) :
    ∀ (fuel id x : Nat), x ∈ visit t fuel id → id ≤ x := by
  intro fuel
  induction fuel with
  | zero => intro id x hx; simp [visit] at hx
  | succ fuel ih =>
      intro id x hx
      cases hg : mapGet t.nodes id with
      | none =>
          rw [visit, hg] at hx
          simp at hx
          omega
      | some node =>
          rw [visit, hg] at hx
          rcases List.mem_cons.mp hx with hx | hx
          · omega
          · obtain ⟨c, hc, hxc⟩ := List.mem_flatMap.mp hx
            have hcc : id < c :=
              (h.child_gt id node hg c (List.mem_reverse.mp hc)).1
            have := ih c x hxc
            omega

/-- The visit list does not depend on the fuel once the fuel covers the
distance from `id` to `node_count` (children ids strictly increase). -/
theorem visit_stable {t : Tree T} (h : WF t) :
    ∀ (f1 f2 id : Nat), id < t.node_count →
      t.node_count - id ≤ f1 → t.node_count - id ≤ f2 →
      visit t f1 id = visit t f2 id := by
  intro f1
  induction f1 with
  | zero => intro f2 id hid h1 h2; omega
  | succ f1 ih =>
      intro f2 id hid h1 h2
      cases f2 with
      | zero => omega
      | succ f2 =>
          obtain ⟨node, hg⟩ := get_some_of_keys h.keys hid
          rw [visit, visit, hg]
          simp only
          congr 1
          apply List.flatMap_congr
          intro c hc
          have hcc := h.child_gt id node hg c (List.mem_reverse.mp hc)
          exact ih f2 c hcc.2 (by omega) (by omega)

theorem visit_mem_fwd {t : Tree T} (h : WF t) :
    ∀ (fuel id x : Nat), id < t.node_count → x ∈ visit t fuel id →
      Relation.ReflTransGen (ChildStep t) id x := by
  intro fuel
  induction fuel with
  | zero => intro id x _ hx; simp [visit] at hx
  | succ fuel ih =>
      intro id x hid hx
      obtain ⟨node, hg⟩ := get_some_of_keys h.keys hid
      rw [visit, hg] at hx
      rcases List.mem_cons.mp hx with hx | hx
      · subst hx
        exact Relation.ReflTransGen.refl
      · obtain ⟨c, hc, hxc⟩ := List.mem_flatMap.mp hx
        have hcmem := List.mem_reverse.mp hc
        have hcc := h.child_gt id node hg c hcmem
        exact Relation.ReflTransGen.head ⟨node, hg, hcmem⟩ (ih c x hcc.2 hxc)

theorem visit_mem_bwd {t : Tree T} (h : WF t) {id x : Nat}
    (hr : Relation.ReflTransGen (ChildStep t) id x) :
    ∀ fuel, id < t.node_count → t.node_count - id ≤ fuel →
      x ∈ visit t fuel id := by
  induction hr using Relation.ReflTransGen.head_induction_on with
  | refl =>
      intro fuel hx hf
      obtain ⟨tl, htl⟩ := visit_head t fuel (by omega) x
      rw [htl]
      simp
  | head hs _ ih =>
      rename_i a c _
      intro fuel ha hf
      obtain ⟨node, hg, hcmem⟩ := hs
      have hgete : mapGet t.nodes a = some node := hg
      have hcc := h.child_gt a node hg c hcmem
      cases fuel with
      | zero => omega
      | succ fuel =>
          rw [visit, hg]
          apply List.mem_cons_of_mem
          apply List.mem_flatMap.mpr
          exact ⟨c, List.mem_reverse.mpr hcmem, ih fuel hcc.2 (by omega)⟩

theorem visit_nodup {t : Tree T} (h : WF t) :
    ∀ (fuel id : Nat), id < t.node_count → t.node_count - id ≤ fuel →
      (visit t fuel id).Nodup := by
  intro fuel
  induction fuel with
  | zero => intro id hid hf; omega
  | succ fuel ih =>
      intro id hid hf
      obtain ⟨node, hg⟩ := get_some_of_keys h.keys hid
      rw [visit, hg]
      simp only [List.nodup_cons]
      constructor
      · intro hmem
        obtain ⟨c, hc, hxc⟩ := List.mem_flatMap.mp hmem
        have hcc := h.child_gt id node hg c (List.mem_reverse.mp hc)
        have := visit_ge h fuel c id hxc
        omega
      · rw [List.nodup_flatMap]
        constructor
        · intro c hc
          have hcc := h.child_gt id node hg c (List.mem_reverse.mp hc)
          exact ih c hcc.2 (by omega)
        · have hnd : node.children.reverse.Nodup :=
            List.nodup_reverse.mpr (h.children_nodup id node hg)
          refine List.Pairwise.imp_of_mem ?_ hnd
          intro c1 c2 hc1 hc2 hne
          intro x hx1 hx2
          have hm1 := List.mem_reverse.mp hc1
          have hm2 := List.mem_reverse.mp hc2
          have hlt1 := h.child_gt id node hg c1 hm1
          have hlt2 := h.child_gt id node hg c2 hm2
          have hr1 := visit_mem_fwd h fuel c1 x hlt1.2 hx1
          have hr2 := visit_mem_fwd h fuel c2 x hlt2.2 hx2
          rcases ancestors_chain h hr1 c2 hr2 with hcc | hcc
          · exact hne (sibling_eq h hg hm1 hm2 hcc)
          · exact hne ((sibling_eq h hg hm2 hm1 hcc).symm)

/-- Unfolding the visit list at full fuel `node_count`. -/
theorem visit_expand {t : Tree T} (h : WF t) {id : Nat} {node : TreeNode T}
    (hid : id < t.node_count) (hg : mapGet t.nodes id = some node) :
    visit t t.node_count id =
      id :: node.children.reverse.flatMap (visit t t.node_count) := by
  obtain ⟨m, hm⟩ : ∃ m, t.node_count = m + 1 := ⟨t.node_count - 1, by omega⟩
  have h1 : visit t t.node_count id = visit t (m + 1) id := by rw [hm]
  have h2 : visit t (m + 1) id = id :: node.children.reverse.flatMap (visit t m) := by
    rw [visit, hg]
  rw [h1, h2]
  congr 1
  apply List.flatMap_congr
  intro c hc
  have hcc := h.child_gt id node hg c (List.mem_reverse.mp hc)
  exact visit_stable h m t.node_count c hcc.2 (by omega) (by omega)

theorem node_vals_cons {t : Tree T} {id : Nat} {n : TreeNode T}
    (hg : mapGet t.nodes id = some n) (l : List Nat) :
    node_vals t (id :: l) = n.val :: node_vals t l := by
  simp [node_vals, hg]

/-- Main correspondence: on a well-formed tree, with a stack of existing
ids and fuel at least the total size of the subtrees on the stack, the
aggregate loop computes the left fold of the accumulator update over the
concatenated visit lists of the stack. -/
theorem aggregate_loop_eq {t : Tree T} (f : T → R) (add : R → R → R) (h : WF t) :
    ∀ (fuel : Nat) (stack : List Nat) (value : Option R),
      (∀ id ∈ stack, id < t.node_count) →
      (stack.flatMap (visit t t.node_count)).length ≤ fuel →
      aggregate_loop t f add fuel stack value =
        match (node_vals t (stack.flatMap (visit t t.node_count))).foldl
            (acc_step f add) value with
        | some v => AggResult.ok v
        | none => AggResult.panicked := by
  intro fuel
  induction fuel with
  | zero =>
      intro stack value hstack hlen
      cases stack with
      | nil => cases value <;> simp [aggregate_loop, node_vals, acc_step]
      | cons current rest =>
          exfalso
          have hcur := hstack current (by simp)
          obtain ⟨tl, htl⟩ := visit_head t t.node_count (by omega) current
          rw [List.flatMap_cons, htl] at hlen
          simp at hlen
  | succ fuel ih =>
      intro stack value hstack hlen
      cases stack with
      | nil => cases value <;> simp [aggregate_loop, node_vals, acc_step]
      | cons current rest =>
          have hcur := hstack current (by simp)
          obtain ⟨node, hg⟩ := get_some_of_keys h.keys hcur
          have hrw : ∀ w : Option R,
              aggregate_loop t f add (fuel + 1) (current :: rest) w =
              aggregate_loop t f add fuel
                (if 0 < node.children.length
                 then node.children.reverse ++ rest else rest)
                (acc_step f add w node.val) := by
            intro w
            cases w <;> simp [aggregate_loop, hg, acc_step]
          rw [hrw value]
          have hif : (if 0 < node.children.length
              then node.children.reverse ++ rest else rest) =
              node.children.reverse ++ rest := by
            cases node.children <;> simp
          rw [hif]
          have hflat : (current :: rest).flatMap (visit t t.node_count) =
              current :: (node.children.reverse ++ rest).flatMap
                (visit t t.node_count) := by
            rw [List.flatMap_cons, visit_expand h hcur hg, List.flatMap_append]
            simp
          rw [hflat] at hlen ⊢
          rw [node_vals_cons hg, List.foldl_cons]
          apply ih
          · intro id hid
            rcases List.mem_append.mp hid with hid | hid
            · exact (h.child_gt current node hg id (List.mem_reverse.mp hid)).2
            · exact hstack id (by simp [hid])
          · rw [List.length_cons] at hlen
            omega

/-- Reflexive-transitive descendants of an existing node exist. -/
theorem rtg_lt_count {t : Tree T} (h : WF t) {a x : Nat}
    (ha : a < t.node_count)
    (hr : Relation.ReflTransGen (ChildStep t) a x) : x < t.node_count := by
  induction hr with
  | refl => exact ha
  | tail _ hs _ => exact (child_step_lt h hs).2

theorem foldl_acc_step_isSome (f : T → R) (add : R → R → R) :
    ∀ (l : List T) (v : Option R), v.isSome ∨ l ≠ [] →
      (l.foldl (acc_step f add) v).isSome := by
  intro l
  induction l with
  | nil =>
      intro v hv
      rcases hv with hv | hv
      · simpa using hv
      · simp at hv
  | cons x xs ih =>
      intro v _
      rw [List.foldl_cons]
      apply ih
      left
      cases v <;> simp [acc_step]

/-! ### Claims C3, C4, C5 -/

/-- C3 (amended).  For every tree built by `Tree::new` and `add_child`
calls each naming a parent that exists at the time of the call, every
non-root node's id is strictly greater than its parent's id, and the
parent/children relation is acyclic: no node is its own (proper)
descendant.  (Without the existing-parent restriction this fails:
`add_child` with `parent_id = node_count` creates a self-parented node,
see the counterexample.) -/
theorem claim_c3 (t : Tree T) (h : StrictReachable t) :
    (∀ id n p, mapGet t.nodes id = some n → n.parent = some p → p < id) ∧
      (∀ a, ¬ Descendant t a a) := by
  have hw := strict_reachable_wf h
  refine ⟨fun id n p hn hp => hw.parent_lt id n hn p hp, fun a ha => ?_⟩
  have := descendant_lt hw ha
  omega

theorem claim_c3_witness : 2 < 3 ∧ ¬ Descendant demo_tree 0 0 :=
  ⟨(claim_c3 demo_tree demo_tree_strict).1 3
      { val := 20, parent := some 2, children := [] } 2 (by decide) rfl,
   (claim_c3 demo_tree demo_tree_strict).2 0⟩

/-- C3 fails as stated over all trees reachable by `Construct` and
`AddChild`: the successful call `add_child 1` on a fresh one-node tree
creates node 1 whose parent is node 1 itself — its id is not strictly
greater than its parent's, and the parent/children relation has a cycle
(node 1 is its own descendant). -/
theorem claim_c3_counterexample :
    Reachable loop_tree ∧
      ((Tree.new (0 : Nat)).add_child 1 0).1 = some 1 ∧
      loop_tree.get_parent_id 1 = some (some 1) ∧
      Descendant loop_tree 1 1 :=
  ⟨loop_tree_reachable, by decide, by decide,
   Relation.TransGen.single
     ⟨{ val := 0, parent := some 1, children := [1] }, by decide, by decide⟩⟩

/-- C4 (amended).  On every tree whose `add_child` calls all named
parents existing at call time, and for every existing `start_id`, the
traversal of `aggregate` visits exactly `{start_id} ∪ descendants`, each
id exactly once, and (with fuel covering the visit list, which the loop
never exhausts in this case) returns the left fold by `add` of `f` over
the visited nodes' values.  (Over arbitrary reachable trees this fails:
a self-parented node makes the loop revisit the same node forever, see
the counterexample.) -/
theorem claim_c4 (t : Tree T) (f : T → R) (add : R → R → R) (start : Nat)
    (h : StrictReachable t) (hs : start < t.node_count) :
    (∀ x, x ∈ visit t t.node_count start ↔
        (x = start ∨ Descendant t start x)) ∧
      (visit t t.node_count start).Nodup ∧
      (∀ fuel, (visit t t.node_count start).length ≤ fuel →
        t.aggregate start f add fuel =
          match (node_vals t (visit t t.node_count start)).foldl
              (acc_step f add) none with
          | some v => AggResult.ok v
          | none => AggResult.panicked) ∧
      ((node_vals t (visit t t.node_count start)).foldl
          (acc_step f add) none).isSome := by
  have hw := strict_reachable_wf h
  obtain ⟨sn, hsn⟩ := get_some_of_keys hw.keys hs
  refine ⟨?_, ?_, ?_, ?_⟩
  · intro x
    constructor
    · intro hx
      rcases (Relation.reflTransGen_iff_eq_or_transGen.mp
        (visit_mem_fwd hw t.node_count start x hs hx)) with he | ht
      · exact Or.inl he
      · exact Or.inr ht
    · intro hx
      apply visit_mem_bwd hw ?_ t.node_count hs (by omega)
      rcases hx with hx | hx
      · rw [hx]
      · exact Relation.reflTransGen_iff_eq_or_transGen.mpr (Or.inr hx)
  · exact visit_nodup hw t.node_count start hs (by omega)
  · intro fuel hfuel
    rw [Tree.aggregate]
    rw [aggregate_loop_eq f add hw fuel [start] none (by simpa using hs)
      (by simpa using hfuel)]
    simp
  · apply foldl_acc_step_isSome
    right
    rw [visit_expand hw hs hsn, node_vals_cons hsn]
    simp

theorem claim_c4_witness :
    0 < demo_tree.node_count ∧
      (visit demo_tree demo_tree.node_count 0).length ≤ 4 ∧
      (3 ∈ visit demo_tree demo_tree.node_count 0 ↔
        (3 = 0 ∨ Descendant demo_tree 0 3)) ∧
      (visit demo_tree demo_tree.node_count 0).Nodup ∧
      demo_tree.aggregate 0 (fun v => v) (fun a b => a + b) 4 =
        AggResult.ok 45 := by
  have h := claim_c4 demo_tree (fun v => v) (fun a b => a + b) 0
    demo_tree_strict (by decide)
  exact ⟨by decide, by decide, h.1 3, h.2.1,
    (h.2.2.1 4 (by decide)).trans (by decide)⟩

/-- C4 fails as stated: on the reachable tree with a self-parented node,
`aggregate` started at that node revisits it forever — the visit list is
not duplicate-free and the loop runs out of any amount of fuel instead of
visiting each subtree node once. -/
theorem claim_c4_counterexample :
    Reachable loop_tree ∧ 1 < loop_tree.node_count ∧
      ¬ (visit loop_tree loop_tree.node_count 1).Nodup ∧
      loop_tree.aggregate 1 (fun v => v) (fun a b => a + b) 100 =
        AggResult.fuelOut :=
  ⟨loop_tree_reachable, by decide, by decide, by decide⟩

/-- C5 (amended).  On every tree whose `add_child` calls all named
parents existing at call time, `aggregate` from any existing `start_id`
is a finite computation bounded by the size of the subtree rooted at
`start_id`: that many loop iterations always suffice (and the subtree
size is itself at most `node_count`).  (Over arbitrary reachable trees
this fails: aggregation from a self-parented node never terminates, see
the counterexample.) -/
theorem claim_c5 (t : Tree T) (f : T → R) (add : R → R → R) (start : Nat)
    (h : StrictReachable t) (hs : start < t.node_count) :
    (visit t t.node_count start).length ≤ t.node_count ∧
      t.aggregate start f add ((visit t t.node_count start).length) ≠
        AggResult.fuelOut := by
  have hw := strict_reachable_wf h
  have hc4 := claim_c4 t f add start h hs
  constructor
  · have hsub : visit t t.node_count start ⊆ List.range t.node_count := by
      intro x hx
      rw [List.mem_range]
      exact rtg_lt_count hw hs (visit_mem_fwd hw t.node_count start x hs hx)
    have := List.Subperm.length_le ((hc4.2.1).subperm hsub)
    simpa using this
  · rw [hc4.2.2.1 ((visit t t.node_count start).length) (Nat.le_refl _)]
    obtain ⟨v, hv⟩ := Option.isSome_iff_exists.mp hc4.2.2.2
    rw [hv]
    simp

theorem claim_c5_witness :
    2 < demo_tree.node_count ∧
      (visit demo_tree demo_tree.node_count 2).length ≤ demo_tree.node_count ∧
      demo_tree.aggregate 2 (fun v => v) (fun a b => a + b)
          ((visit demo_tree demo_tree.node_count 2).length) ≠
        AggResult.fuelOut := by
  have h := claim_c5 demo_tree (fun v => v) (fun a b => a + b) 2
    demo_tree_strict (by decide)
  exact ⟨by decide, h.1, h.2⟩

/-- C5 fails as stated: on the reachable tree with a self-parented node
the aggregation loop started there is not bounded by the subtree size
(or by any fuel at all) — 50 iterations, far more than the two nodes of
the tree, still leave the loop running. -/
theorem claim_c5_counterexample :
    Reachable loop_tree ∧ 1 < loop_tree.node_count ∧
      loop_tree.aggregate 1 (fun v => v) (fun a b => a + b) 50 =
        AggResult.fuelOut :=
  ⟨loop_tree_reachable, by decide, by decide⟩

end AocLib
